import Mathlib

set_option maxRecDepth 10000

/-!
Shallow embedding of `src/generate.py` (BugLiteAI image pipeline).

The script processes one "species" (category) directory at a time:
it creates an `images` subdirectory, merges the category's CSV metadata
files, extracts the `image_url` column (dropping NA cells and duplicates),
shuffles, truncates to `MAX_IMAGES_PER_SPECIES`, downloads each candidate
concurrently into a file named by the candidate's 1-based position, and
finally tops the directory up to the target count with randomly augmented
copies of already-present files.

Modelling decisions:
* A file in the category's `images` directory is identified by its numeric
  index (the `Img{idx:04d}` part of the name); since the filename is a fixed
  injective function of the index for a fixed category, the directory is a
  map `Nat → Option Content`.
* `Content` records the provenance of a file: a downloaded image tagged with
  its URL, or an augmented image tagged with the index it was sampled from
  and the content that was read there.
* Network and decode success of `download_image` is an oracle
  `valid : String → Bool` (line 30-39: any failure returns False, success
  writes the file and returns True).
* `random.shuffle` is an opaque permutation `σ` of the candidate list;
  `random.choice` draws are given by a stream `g : Nat → Nat` indexed by the
  loop counter (the pick is `g i % pool.length`, a uniform sample position).
* CSV parsing is out of scope per the pipeline's design: a `CsvFile` exposes
  `imageUrl = none` when the file lacks the `image_url` column (its rows
  contribute NaN after `pd.concat`, removed by `dropna`), and otherwise the
  raw cells of that column, where an empty cell is the empty string (pandas
  parses an empty field to NaN, which `dropna` removes; `parseCell` fuses
  that parse with the drop).
-/

/-- Provenance-tagged content of one file in the `images` directory. -/
inductive Content where
  | downloaded : String → Content
  | augmented : Nat → Content → Content
  deriving DecidableEq

/-- State of one category's directory tree after processing: whether the
`images` subdirectory exists (`safe_mkdir`, line 62) and which indexed
files it holds. -/
structure CatState where
  imagesDirExists : Bool
  files : Nat → Option Content

/-- One metadata file of a category: `none` when the `image_url` column is
absent, otherwise the raw cells of that column in row order. -/
structure CsvFile where
  imageUrl : Option (List String)
  deriving DecidableEq

/-- A species directory: its basename and its CSV files. -/
structure Category where
  name : String
  csvs : List CsvFile
  deriving DecidableEq

/-- Result of `process_species` for one category: the two early-return skip
paths (lines 73-75 and 79-81), normal completion carrying the directory
state, `downloaded_count` and `augment_count`, or an uncaught exception
escaping the augmentation loop (`random.choice` on an empty pool). -/
inductive SpeciesOutcome where
  | skippedNoCsv : CatState → SpeciesOutcome
  | skippedNoColumn : CatState → SpeciesOutcome
  | done : CatState → Nat → Nat → SpeciesOutcome
  | crashed : CatState → Nat → SpeciesOutcome

/-- Result of the augmentation while-loop: final directory contents, number
of files written (`augment_count`), and whether it ran to completion
(`ok = false` models the uncaught `IndexError` / missing-file exception). -/
structure AugResult where
  fs : Nat → Option Content
  count : Nat
  ok : Bool

/-- An empty `images` directory. -/
def emptyFS : Nat → Option Content := fun _ => none

/-- Pandas cell semantics for one raw CSV cell of the `image_url` column: an
empty field parses to NaN and is removed by `dropna` (line 83), any other
string survives. -/
def parseCell (s : String) : Option String :=
  if s.isEmpty then none else some s

/-- `pandas.unique`: keep the first occurrence of each value, in order. -/
def pdUniqueAux (seen : List String) : List String → List String
  | [] => []
  | x :: xs =>
    if x ∈ seen then pdUniqueAux seen xs
    else x :: pdUniqueAux (x :: seen) xs

/-- `df["image_url"].dropna().unique().tolist()` (line 83). -/
def pdUnique (l : List String) : List String := pdUniqueAux [] l

/-- Line 77 + 83: concatenate all CSVs (files lacking the column contribute
only NaN cells), extract the `image_url` column, drop NA, deduplicate. -/
def candidateUrls (csvs : List CsvFile) : List String :=
  pdUnique (((csvs.filterMap CsvFile.imageUrl).flatten).filterMap parseCell)

/-- Lines 83-85: dedup, shuffle with `σ`, truncate to the target count. -/
def speciesUrls (target : Nat) (cat : Category) (σ : List String → List String) :
    List String :=
  (σ (candidateUrls cat.csvs)).take target

/-- The file (if any) that the fetch pool writes for the 0-based candidate
position `j`: candidate `j` exists and `download_image` succeeds on it. -/
def fetchAt (urls : List String) (valid : String → Bool) (j : Nat) : Option Content :=
  if j < urls.length then
    (if valid (urls.getD j "") then some (Content.downloaded (urls.getD j "")) else none)
  else none

/-- Directory contents after the fetch batch (lines 92-100): index `j+1`
holds the download of candidate `j` when it succeeded, nothing otherwise. -/
def fetchFS (urls : List String) (valid : String → Bool) : Nat → Option Content :=
  fun i =>
    match i with
    | 0 => none
    | j + 1 => fetchAt urls valid j

/-- Lines 98-102: the count of futures whose result is True, in whatever
order `as_completed` yields them. -/
def poolDownloadedCount (valid : String → Bool) (order : List String) : Nat :=
  (order.filter valid).length

/-- One completed fetch task in an explicitly scheduled execution: task `j`
writes its image to index `j+1` iff its download succeeds. -/
def fetchStep (urls : List String) (valid : String → Bool)
    (fs : Nat → Option Content) (j : Nat) : Nat → Option Content :=
  match fetchAt urls valid j with
  | some c => fun i => if i = j + 1 then some c else fs i
  | none => fs

/-- The fetch batch executed under an explicit completion schedule (a list of
0-based task positions in the order their writes land). -/
def fetchRunOrdered (urls : List String) (valid : String → Bool)
    (schedule : List Nat) : Nat → Option Content :=
  schedule.foldl (fetchStep urls valid) emptyFS

/-- The indices of the `.jpg` files present in the directory, in listing
order (`os.listdir` filtered to `.jpg`, lines 111-115; all written indices
lie in `1..T`). -/
def fileIndices (T : Nat) (fs : Nat → Option Content) : List Nat :=
  (List.range' 1 T).filter (fun i => (fs i).isSome)

/-- Lines 111-115: snapshot of the pool of augmentation sources, taken once
before the while-loop. -/
def existingImages (target : Nat) (urls : List String) (valid : String → Bool) :
    List Nat :=
  fileIndices target (fetchFS urls valid)

/-- One iteration of the augmentation loop body (lines 120-125):
`random.choice` over the snapshotted pool (raises on an empty pool, hence
`none`), `Image.open` of the chosen path (current content of that index),
augmented copy written at `imgIndex`. -/
def augStep (existing : List Nat) (g : Nat → Nat)
    (fs : Nat → Option Content) (imgIndex : Nat) : Option (Nat → Option Content) :=
  match existing.get? (g imgIndex % existing.length) with
  | none => none
  | some src =>
    match fs src with
    | none => none
    | some c => some (fun j => if j = imgIndex then some (Content.augmented src c) else fs j)

/-- The augmentation while-loop (lines 117-128), with `fuel` the remaining
iteration count (`target - imgIndex + 1` at entry) and `acc` the running
`augment_count`. -/
def augLoop (existing : List Nat) (g : Nat → Nat) :
    (Nat → Option Content) → Nat → Nat → Nat → AugResult
  | fs, _, 0, acc => ⟨fs, acc, true⟩
  | fs, imgIndex, fuel + 1, acc =>
    match augStep existing g fs imgIndex with
    | none => ⟨fs, acc, false⟩
    | some fs2 => augLoop existing g fs2 (imgIndex + 1) fuel (acc + 1)

/-- Lines 87-133 of `process_species`, after the metadata checks passed:
fetch the (already shuffled and truncated) candidates, and if
`downloaded_count < target` run the augmentation top-up. -/
def fetchPhase (target : Nat) (urls : List String) (valid : String → Bool)
    (g : Nat → Nat) : SpeciesOutcome :=
  if poolDownloadedCount valid urls < target then
    (let r := augLoop (existingImages target urls valid) g (fetchFS urls valid)
        (poolDownloadedCount valid urls + 1) (target - poolDownloadedCount valid urls) 0
     if r.ok then SpeciesOutcome.done ⟨true, r.fs⟩ (poolDownloadedCount valid urls) r.count
     else SpeciesOutcome.crashed ⟨true, r.fs⟩ (poolDownloadedCount valid urls))
  else SpeciesOutcome.done ⟨true, fetchFS urls valid⟩ (poolDownloadedCount valid urls) 0

/-- `process_species` (lines 59-133): make the `images` directory, then the
two skip checks (no CSV files; no `image_url` column anywhere), then the
fetch-and-top-up phase. -/
def processSpecies (target : Nat) (cat : Category) (σ : List String → List String)
    (valid : String → Bool) (g : Nat → Nat) : SpeciesOutcome :=
  if cat.csvs = [] then SpeciesOutcome.skippedNoCsv ⟨true, emptyFS⟩
  else if cat.csvs.filterMap CsvFile.imageUrl = [] then
    SpeciesOutcome.skippedNoColumn ⟨true, emptyFS⟩
  else fetchPhase target (speciesUrls target cat σ) valid g

/-- `main`'s loop over species folders (lines 145-146): sequential, with no
exception handling, so a crashed category aborts the run and the remaining
categories are never attempted. `σs i` and `gs i` are the random state the
`i`-th processed category observes. -/
def runAll (target : Nat) (valid : String → Bool)
    (σs : Nat → List String → List String) (gs : Nat → Nat → Nat) :
    Nat → List Category → List (String × SpeciesOutcome)
  | _, [] => []
  | i, c :: rest =>
    (c.name, processSpecies target c (σs i) valid (gs i)) ::
      (match processSpecies target c (σs i) valid (gs i) with
       | SpeciesOutcome.crashed _ _ => []
       | _ => runAll target valid σs gs (i + 1) rest)

/-- The directory state an outcome carries. -/
def outcomeState : SpeciesOutcome → CatState
  | SpeciesOutcome.skippedNoCsv st => st
  | SpeciesOutcome.skippedNoColumn st => st
  | SpeciesOutcome.done st _ _ => st
  | SpeciesOutcome.crashed st _ => st

/-- The `images` directory contents an outcome carries. -/
def outcomeFiles (o : SpeciesOutcome) : Nat → Option Content :=
  (outcomeState o).files

/-- Whether the `images` subdirectory exists after the outcome. -/
def outcomeDir (o : SpeciesOutcome) : Bool :=
  (outcomeState o).imagesDirExists

/-- The reported `downloaded_count` (0 on the skip paths). -/
def outcomeDownloaded : SpeciesOutcome → Nat
  | SpeciesOutcome.done _ d _ => d
  | SpeciesOutcome.crashed _ d => d
  | _ => 0

/-- The reported `augment_count`. -/
def outcomeAugmented : SpeciesOutcome → Nat
  | SpeciesOutcome.done _ _ a => a
  | _ => 0

/-- Whether the category's processing raised an uncaught exception. -/
def outcomeCrashed : SpeciesOutcome → Bool
  | SpeciesOutcome.crashed _ _ => true
  | _ => false

/-- Whether the category took one of the two early-return skip paths. -/
def outcomeIsSkip : SpeciesOutcome → Bool
  | SpeciesOutcome.skippedNoCsv _ => true
  | SpeciesOutcome.skippedNoColumn _ => true
  | _ => false

/-- Whether index `i` currently holds an augmented file. -/
def isAugmentedAt (fs : Nat → Option Content) (i : Nat) : Bool :=
  match fs i with
  | some (Content.augmented _ _) => true
  | _ => false

/-- `downloaded_count` of a category as the fetch pool computes it on the
shuffled-and-truncated candidate list. -/
def speciesD (target : Nat) (cat : Category) (σ : List String → List String)
    (valid : String → Bool) : Nat :=
  poolDownloadedCount valid (speciesUrls target cat σ)

/- Concrete instances used by witnesses and counterexamples. -/

/-- A category whose CSVs yield candidates "a", "b", "c". -/
def catABC : Category := ⟨"w", [⟨some ["a", "b", "c"]⟩]⟩

/-- A category whose CSVs yield candidates "A", "B". -/
def catAB : Category := ⟨"g", [⟨some ["A", "B"]⟩]⟩

/-- A category with one candidate, used for the crash scenario. -/
def catBad : Category := ⟨"bad", [⟨some ["X"]⟩]⟩

/-- A second category that should have been processed after `catBad`. -/
def catGood : Category := ⟨"good", [⟨some ["Y"]⟩]⟩

/-- A category with no CSV files at all. -/
def catNoCsv : Category := ⟨"empty", []⟩

/-- Validity oracle: only "a" and "b" download successfully. -/
def validAB : String → Bool := fun u => u == "a" || u == "b"

/-- Validity oracle: only "a" downloads successfully. -/
def validA : String → Bool := fun u => u == "a"

/-- Validity oracle: only "B" downloads successfully. -/
def validB : String → Bool := fun u => u == "B"

/-- Validity oracle: every download fails (all fetches time out). -/
def validNone : String → Bool := fun _ => false

/-- A degenerate `random.choice` stream that always picks position 0. -/
def g0 : Nat → Nat := fun _ => 0

example : candidateUrls catABC.csvs = ["a", "b", "c"] := by decide
example : speciesD 3 catABC id validAB = 2 := by decide
example : fileIndices 2 (outcomeFiles (processSpecies 2 catAB id validB g0)) = [2] := by
  decide

/-! ### List helpers -/

theorem listGetD_eq_get (l : List String) :
    ∀ (j : Nat) (h : j < l.length), l.getD j "" = l.get ⟨j, h⟩ := by
  induction l with
  | nil => intro j h; simp at h
  | cons a t ih =>
    intro j h
    cases j with
    | zero => rfl
    | succ j => exact ih j (by simpa using h)

theorem choice_mem (l : List Nat) (h : l ≠ []) (k : Nat) :
    ∃ v, l.get? (k % l.length) = some v ∧ v ∈ l := by
  have hl : 0 < l.length := List.length_pos.mpr h
  have hk : k % l.length < l.length := Nat.mod_lt _ hl
  exact ⟨l.get ⟨k % l.length, hk⟩, List.get?_eq_get hk, List.get_mem _ _ _⟩

theorem mem_pdUniqueAux :
    ∀ (l seen : List String) (u : String), u ∈ pdUniqueAux seen l → u ∈ l := by
  intro l
  induction l with
  | nil => intro seen u h; simp [pdUniqueAux] at h
  | cons x xs ih =>
    intro seen u h
    by_cases hx : x ∈ seen
    · simp only [pdUniqueAux, if_pos hx] at h
      exact List.mem_cons_of_mem _ (ih seen u h)
    · simp only [pdUniqueAux, if_neg hx] at h
      rcases List.mem_cons.mp h with h | h
      · exact h ▸ List.mem_cons_self _ _
      · exact List.mem_cons_of_mem _ (ih _ u h)

theorem not_mem_pdUniqueAux :
    ∀ (l seen : List String) (u : String), u ∈ seen → u ∉ pdUniqueAux seen l := by
  intro l
  induction l with
  | nil => intro seen u _; simp [pdUniqueAux]
  | cons x xs ih =>
    intro seen u hu
    by_cases hx : x ∈ seen
    · simpa only [pdUniqueAux, if_pos hx] using ih seen u hu
    · simp only [pdUniqueAux, if_neg hx]
      intro hmem
      rcases List.mem_cons.mp hmem with h | h
      · exact hx (h ▸ hu)
      · exact ih (x :: seen) u (List.mem_cons_of_mem _ hu) h

theorem pdUniqueAux_nodup : ∀ (l seen : List String), (pdUniqueAux seen l).Nodup := by
  intro l
  induction l with
  | nil => intro seen; simp [pdUniqueAux]
  | cons x xs ih =>
    intro seen
    by_cases hx : x ∈ seen
    · simpa only [pdUniqueAux, if_pos hx] using ih seen
    · simp only [pdUniqueAux, if_neg hx]
      exact List.nodup_cons.mpr
        ⟨not_mem_pdUniqueAux xs (x :: seen) x (List.mem_cons_self _ _), ih (x :: seen)⟩

theorem pdUnique_nodup (l : List String) : (pdUnique l).Nodup := pdUniqueAux_nodup l []

theorem mem_pdUnique {l : List String} {u : String} (h : u ∈ pdUnique l) : u ∈ l :=
  mem_pdUniqueAux l [] u h

/-! ### Fetch-phase helpers -/

theorem fetchAt_isSome_iff (urls : List String) (valid : String → Bool) (j : Nat) :
    (fetchAt urls valid j).isSome = true ↔
      (j < urls.length ∧ valid (urls.getD j "") = true) := by
  unfold fetchAt
  split_ifs with h1 h2 <;> simp_all

theorem fetchAt_not_augmented (urls : List String) (valid : String → Bool)
    (j s : Nat) (c : Content) : fetchAt urls valid j ≠ some (Content.augmented s c) := by
  unfold fetchAt
  split_ifs <;> simp

theorem fetchFS_not_augmented (urls : List String) (valid : String → Bool)
    (i s : Nat) (c : Content) : fetchFS urls valid i ≠ some (Content.augmented s c) := by
  cases i with
  | zero => simp [fetchFS]
  | succ j => exact fetchAt_not_augmented urls valid j s c

theorem fetchAt_downloaded (urls : List String) (valid : String → Bool) (j : Nat)
    (c : Content) (h : fetchAt urls valid j = some c) :
    ∃ u, c = Content.downloaded u := by
  unfold fetchAt at h
  split_ifs at h with h1 h2
  exact ⟨urls.getD j "", (Option.some.inj h).symm⟩

theorem fetchRun_untouched (urls : List String) (valid : String → Bool) :
    ∀ (s : List Nat) (fs : Nat → Option Content) (i : Nat),
      (∀ j ∈ s, i ≠ j + 1) → s.foldl (fetchStep urls valid) fs i = fs i := by
  intro s
  induction s with
  | nil => intro fs i _; rfl
  | cons a t ih =>
    intro fs i h
    have ha : i ≠ a + 1 := h a (List.mem_cons_self _ _)
    have ht : ∀ j ∈ t, i ≠ j + 1 := fun j hj => h j (List.mem_cons_of_mem _ hj)
    show (t.foldl (fetchStep urls valid) (fetchStep urls valid fs a)) i = fs i
    rw [ih _ i ht]
    unfold fetchStep
    cases hfa : fetchAt urls valid a with
    | none => rfl
    | some c => simp [ha]

theorem fetchRun_write (urls : List String) (valid : String → Bool) :
    ∀ (s : List Nat) (fs : Nat → Option Content) (j : Nat), s.Nodup → j ∈ s →
      s.foldl (fetchStep urls valid) fs (j + 1) =
        (match fetchAt urls valid j with
         | some c => some c
         | none => fs (j + 1)) := by
  intro s
  induction s with
  | nil => intro fs j _ hj; simp at hj
  | cons a t ih =>
    intro fs j hnd hj
    have hnd2 := List.nodup_cons.mp hnd
    show (t.foldl (fetchStep urls valid) (fetchStep urls valid fs a)) (j + 1) = _
    rcases List.mem_cons.mp hj with h | h
    · subst h
      have ht : ∀ k ∈ t, j + 1 ≠ k + 1 := by
        intro k hk hEq
        exact hnd2.1 (Nat.succ.inj hEq ▸ hk)
      rw [fetchRun_untouched urls valid t _ (j + 1) ht]
      unfold fetchStep
      cases hfa : fetchAt urls valid j with
      | none => rfl
      | some c => simp
    · have hne : j ≠ a := fun hEq => hnd2.1 (hEq ▸ h)
      rw [ih _ j hnd2.2 h]
      have hstep : fetchStep urls valid fs a (j + 1) = fs (j + 1) := by
        unfold fetchStep
        cases hfa : fetchAt urls valid a with
        | none => rfl
        | some c =>
          have : j + 1 ≠ a + 1 := by omega
          simp [this]
      cases hfa : fetchAt urls valid j with
      | none => simp [hstep]
      | some c => simp

theorem fetchRunOrdered_eq (urls : List String) (valid : String → Bool)
    (s : List Nat) (hs : s.Perm (List.range urls.length)) :
    ∀ i, fetchRunOrdered urls valid s i = fetchFS urls valid i := by
  have hnd : s.Nodup := hs.nodup_iff.mpr (List.nodup_range _)
  have hmem : ∀ j, j ∈ s ↔ j < urls.length := fun j => by
    rw [hs.mem_iff, List.mem_range]
  intro i
  cases i with
  | zero =>
    have h0 : ∀ j ∈ s, 0 ≠ j + 1 := fun j _ h => Nat.succ_ne_zero j h.symm
    have := fetchRun_untouched urls valid s emptyFS 0 h0
    simpa [fetchRunOrdered, fetchFS, emptyFS] using this
  | succ j =>
    by_cases hj : j < urls.length
    · have hjs : j ∈ s := (hmem j).mpr hj
      have hw := fetchRun_write urls valid s emptyFS j hnd hjs
      show s.foldl (fetchStep urls valid) emptyFS (j + 1) = _
      rw [hw]
      cases hfa : fetchAt urls valid j with
      | none => simp [fetchFS, hfa, emptyFS]
      | some c => simp [fetchFS, hfa]
    · have hjs : j ∉ s := fun h => hj ((hmem j).mp h)
      have ht : ∀ k ∈ s, j + 1 ≠ k + 1 := by
        intro k hk hEq
        exact hjs (Nat.succ.inj hEq ▸ hk)
      have hu := fetchRun_untouched urls valid s emptyFS (j + 1) ht
      show s.foldl (fetchStep urls valid) emptyFS (j + 1) = _
      rw [hu]
      have : fetchAt urls valid j = none := by
        unfold fetchAt
        rw [if_neg hj]
      simp [fetchFS, this, emptyFS]

/-! ### Augmentation-loop helpers -/

theorem augStep_inv (existing : List Nat) (g : Nat → Nat)
    (fs : Nat → Option Content) (imgIndex : Nat) (fs2 : Nat → Option Content)
    (h : augStep existing g fs imgIndex = some fs2) :
    ∃ src c, src ∈ existing ∧ fs src = some c ∧
      fs2 = fun j => if j = imgIndex then some (Content.augmented src c) else fs j := by
  unfold augStep at h
  cases hget : existing.get? (g imgIndex % existing.length) with
  | none => simp only [hget] at h; cases h
  | some src =>
    simp only [hget] at h
    cases hc : fs src with
    | none => simp only [hc] at h; cases h
    | some c =>
      simp only [hc] at h
      exact ⟨src, c, List.get?_mem hget, hc, (Option.some.inj h).symm⟩

theorem augStep_some (existing : List Nat) (g : Nat → Nat)
    (fs : Nat → Option Content) (imgIndex : Nat)
    (hne : existing ≠ []) (hfs : ∀ j ∈ existing, (fs j).isSome = true) :
    ∃ src c, src ∈ existing ∧ fs src = some c ∧
      augStep existing g fs imgIndex =
        some (fun j => if j = imgIndex then some (Content.augmented src c) else fs j) := by
  obtain ⟨src, hget, hmem⟩ := choice_mem existing hne (g imgIndex)
  obtain ⟨c, hc⟩ := Option.isSome_iff_exists.mp (hfs src hmem)
  refine ⟨src, c, hmem, hc, ?_⟩
  unfold augStep
  simp only [hget, hc]

theorem augLoop_spec (existing : List Nat) (g : Nat → Nat) :
    ∀ (fuel imgIndex acc : Nat) (fs : Nat → Option Content),
      existing ≠ [] →
      (∀ j ∈ existing, (fs j).isSome = true) →
      (augLoop existing g fs imgIndex fuel acc).ok = true ∧
      (augLoop existing g fs imgIndex fuel acc).count = acc + fuel ∧
      (∀ i, i < imgIndex ∨ imgIndex + fuel ≤ i →
        (augLoop existing g fs imgIndex fuel acc).fs i = fs i) ∧
      (∀ i, imgIndex ≤ i → i < imgIndex + fuel →
        ∃ s c, (augLoop existing g fs imgIndex fuel acc).fs i =
          some (Content.augmented s c) ∧ s ∈ existing) := by
  intro fuel
  induction fuel with
  | zero =>
    intro imgIndex acc fs _ _
    refine ⟨rfl, rfl, fun i _ => rfl, fun i h1 h2 => ?_⟩
    omega
  | succ n ih =>
    intro imgIndex acc fs hne hfs
    obtain ⟨src, c, hmem, hc, hstep⟩ := augStep_some existing g fs imgIndex hne hfs
    have hunfold : augLoop existing g fs imgIndex (n + 1) acc =
        augLoop existing g
          (fun j => if j = imgIndex then some (Content.augmented src c) else fs j)
          (imgIndex + 1) n (acc + 1) := by
      simp only [augLoop, hstep]
    have hfs2 : ∀ j ∈ existing,
        ((fun j => if j = imgIndex then some (Content.augmented src c) else fs j) j).isSome
          = true := by
      intro j hj
      by_cases hji : j = imgIndex
      · simp [hji]
      · simp only [if_neg hji]
        exact hfs j hj
    obtain ⟨hok, hcount, hframe, hrange⟩ := ih (imgIndex + 1) (acc + 1) _ hne hfs2
    rw [hunfold]
    refine ⟨hok, by rw [hcount]; omega, ?_, ?_⟩
    · intro i hi
      have hi2 : i < imgIndex + 1 ∨ imgIndex + 1 + n ≤ i := by omega
      rw [hframe i hi2]
      have hne2 : i ≠ imgIndex := by omega
      simp only [if_neg hne2]
    · intro i h1 h2
      by_cases hii : i = imgIndex
      · subst hii
        have hfr : i < i + 1 ∨ i + 1 + n ≤ i := Or.inl (by omega)
        rw [hframe i hfr]
        exact ⟨src, c, by simp, hmem⟩
      · exact hrange i (by omega) (by omega)

theorem augLoop_pure (existing : List Nat) (g : Nat → Nat) :
    ∀ (fuel imgIndex acc : Nat) (fs : Nat → Option Content),
      (∀ j ∈ existing, j < imgIndex) →
      (∀ j ∈ existing, ∃ u, fs j = some (Content.downloaded u)) →
      (∀ i s c, fs i = some (Content.augmented s c) → ∃ u, c = Content.downloaded u) →
      ∀ i s c, (augLoop existing g fs imgIndex fuel acc).fs i =
          some (Content.augmented s c) →
        ∃ u, c = Content.downloaded u := by
  intro fuel
  induction fuel with
  | zero =>
    intro imgIndex acc fs _ _ hinv i s c h
    exact hinv i s c h
  | succ n ih =>
    intro imgIndex acc fs hlt hdl hinv i s c h
    cases hstep : augStep existing g fs imgIndex with
    | none =>
      have hrw : augLoop existing g fs imgIndex (n + 1) acc = ⟨fs, acc, false⟩ := by
        simp only [augLoop, hstep]
      rw [hrw] at h
      exact hinv i s c h
    | some fs2 =>
      obtain ⟨src, c0, hmem, hc0, hfs2⟩ := augStep_inv existing g fs imgIndex fs2 hstep
      have hrw : augLoop existing g fs imgIndex (n + 1) acc =
          augLoop existing g fs2 (imgIndex + 1) n (acc + 1) := by
        simp only [augLoop, hstep]
      rw [hrw] at h
      subst hfs2
      refine ih (imgIndex + 1) (acc + 1) _ ?_ ?_ ?_ i s c h
      · intro j hj
        exact Nat.lt_succ_of_lt (hlt j hj)
      · intro j hj
        obtain ⟨u, hu⟩ := hdl j hj
        have hne : j ≠ imgIndex := Nat.ne_of_lt (hlt j hj)
        exact ⟨u, by simp only [if_neg hne]; exact hu⟩
      · intro i2 s2 c2 h2
        by_cases hi2 : i2 = imgIndex
        · rw [hi2] at h2
          simp only [if_pos rfl] at h2
          obtain ⟨u, hu⟩ := hdl src hmem
          rw [hu] at hc0
          have hcc : c2 = c0 := by
            have := Option.some.inj h2
            cases this
            rfl
          exact ⟨u, by rw [hcc, Option.some.inj hc0]⟩
        · simp only [if_neg hi2] at h2
          exact hinv i2 s2 c2 h2

/-! ### Existing-pool helpers -/

theorem poolD_le_length (valid : String → Bool) (urls : List String) :
    poolDownloadedCount valid urls ≤ urls.length :=
  List.length_filter_le _ _

theorem speciesUrls_length_le (target : Nat) (cat : Category)
    (σ : List String → List String) : (speciesUrls target cat σ).length ≤ target := by
  unfold speciesUrls
  rw [List.length_take]
  exact Nat.min_le_left _ _

theorem existingImages_isSome (target : Nat) (urls : List String)
    (valid : String → Bool) :
    ∀ j ∈ existingImages target urls valid, (fetchFS urls valid j).isSome = true := by
  intro j hj
  exact (List.mem_filter.mp hj).2

theorem existingImages_ne_nil (target : Nat) (urls : List String)
    (valid : String → Bool) (hlen : urls.length ≤ target)
    (hD : 0 < poolDownloadedCount valid urls) :
    existingImages target urls valid ≠ [] := by
  have hfil : urls.filter valid ≠ [] := by
    intro hnil
    rw [poolDownloadedCount, hnil] at hD
    simp at hD
  obtain ⟨u, hu⟩ := List.exists_mem_of_ne_nil _ hfil
  have hu2 := List.mem_filter.mp hu
  obtain ⟨⟨j, hjlen⟩, hget⟩ := List.mem_iff_get.mp hu2.1
  have hvalid : valid (urls.getD j "") = true := by
    rw [listGetD_eq_get urls j hjlen, hget]
    exact hu2.2
  have hsome : (fetchFS urls valid (j + 1)).isSome = true := by
    show (fetchAt urls valid j).isSome = true
    rw [fetchAt_isSome_iff]
    exact ⟨hjlen, hvalid⟩
  have hmem : j + 1 ∈ existingImages target urls valid := by
    unfold existingImages fileIndices
    rw [List.mem_filter]
    refine ⟨?_, hsome⟩
    rw [List.mem_range'_1]
    omega
  exact List.ne_nil_of_mem hmem

theorem existingImages_downloaded (target : Nat) (urls : List String)
    (valid : String → Bool) :
    ∀ j ∈ existingImages target urls valid,
      ∃ u, fetchFS urls valid j = some (Content.downloaded u) := by
  intro j hj
  have hsome := (List.mem_filter.mp hj).2
  obtain ⟨c, hc⟩ := Option.isSome_iff_exists.mp hsome
  have hjr := (List.mem_filter.mp hj).1
  rw [List.mem_range'_1] at hjr
  cases j with
  | zero => omega
  | succ k =>
    have hk : fetchAt urls valid k = some c := hc
    obtain ⟨u, hu⟩ := fetchAt_downloaded urls valid k c hk
    exact ⟨u, by rw [hc, hu]⟩

theorem existingImages_le_D (target : Nat) (urls : List String)
    (valid : String → Bool) (D : Nat)
    (hpre : ∀ j, j < urls.length → (valid (urls.getD j "") = true ↔ j < D)) :
    ∀ j ∈ existingImages target urls valid, j < D + 1 := by
  intro j hj
  have hsome := (List.mem_filter.mp hj).2
  cases j with
  | zero => simp [fetchFS] at hsome
  | succ k =>
    have hk := (fetchAt_isSome_iff urls valid k).mp hsome
    have hkD := (hpre k hk.1).mp hk.2
    omega

/-! ### process_species unfolding -/

theorem processSpecies_fetchPhase (target : Nat) (cat : Category)
    (σ : List String → List String) (valid : String → Bool) (g : Nat → Nat)
    (h1 : cat.csvs ≠ []) (h2 : cat.csvs.filterMap CsvFile.imageUrl ≠ []) :
    processSpecies target cat σ valid g =
      fetchPhase target (speciesUrls target cat σ) valid g := by
  unfold processSpecies
  rw [if_neg h1, if_neg h2]

theorem outcomeFiles_done (st : CatState) (d a : Nat) :
    outcomeFiles (SpeciesOutcome.done st d a) = st.files := rfl

theorem fetchPhase_eq_of_ok (target : Nat) (urls : List String)
    (valid : String → Bool) (g : Nat → Nat)
    (hdlt : poolDownloadedCount valid urls < target)
    (hok : (augLoop (existingImages target urls valid) g (fetchFS urls valid)
      (poolDownloadedCount valid urls + 1) (target - poolDownloadedCount valid urls)
      0).ok = true) :
    fetchPhase target urls valid g =
      SpeciesOutcome.done
        ⟨true, (augLoop (existingImages target urls valid) g (fetchFS urls valid)
          (poolDownloadedCount valid urls + 1)
          (target - poolDownloadedCount valid urls) 0).fs⟩
        (poolDownloadedCount valid urls)
        ((augLoop (existingImages target urls valid) g (fetchFS urls valid)
          (poolDownloadedCount valid urls + 1)
          (target - poolDownloadedCount valid urls) 0).count) := by
  unfold fetchPhase
  rw [if_pos hdlt]
  simp [hok]

theorem fetchPhase_eq_noaug (target : Nat) (urls : List String)
    (valid : String → Bool) (g : Nat → Nat)
    (hdlt : ¬ poolDownloadedCount valid urls < target) :
    fetchPhase target urls valid g =
      SpeciesOutcome.done ⟨true, fetchFS urls valid⟩ (poolDownloadedCount valid urls) 0 := by
  unfold fetchPhase
  rw [if_neg hdlt]

theorem runAll_cons_not_crashed (target : Nat) (valid : String → Bool)
    (σs : Nat → List String → List String) (gs : Nat → Nat → Nat) (i : Nat)
    (cat : Category) (rest : List Category)
    (h : outcomeCrashed (processSpecies target cat (σs i) valid (gs i)) = false) :
    runAll target valid σs gs i (cat :: rest) =
      (cat.name, processSpecies target cat (σs i) valid (gs i)) ::
        runAll target valid σs gs (i + 1) rest := by
  cases ho : processSpecies target cat (σs i) valid (gs i) with
  | skippedNoCsv st => simp [runAll, ho]
  | skippedNoColumn st => simp [runAll, ho]
  | done st d a => simp [runAll, ho]
  | crashed st d =>
    rw [ho] at h
    simp [outcomeCrashed] at h

/-- C3: for a batch of candidate locations of which exactly K are valid
fetchable images, the fetch pool reports exactly K successes as
`downloaded_count`: the count of True futures is invariant under the
completion order, hence under any concurrency limit between 1 and N. -/
theorem spec_c3_pool_count (urls : List String) (valid : String → Bool)
    (climit K : Nat) (hc1 : 1 ≤ climit) (hc2 : climit ≤ urls.length)
    (order : List String) (hperm : order.Perm urls)
    (hK : (urls.filter valid).length = K) :
    poolDownloadedCount valid order = K := by
  unfold poolDownloadedCount
  rw [(hperm.filter valid).length_eq, hK]

/-- Witness for C3 at a concrete batch: two candidates, one valid, completion
order reversed from submission order, concurrency limit 1. -/
theorem spec_c3_pool_count_witness : poolDownloadedCount validA ["b", "a"] = 1 :=
  spec_c3_pool_count ["a", "b"] validA 1 1 (by decide) (by decide) ["b", "a"]
    (by decide) (by decide)

/-- C4: the union-dedup-shuffle-truncate step yields at most `target`
candidates, with no duplicate values and no empty or missing values. -/
theorem spec_c4_candidates (target : Nat) (cat : Category)
    (σ : List String → List String)
    (hσ : (σ (candidateUrls cat.csvs)).Perm (candidateUrls cat.csvs)) :
    (speciesUrls target cat σ).length ≤ target ∧
    (speciesUrls target cat σ).Nodup ∧
    ∀ u ∈ speciesUrls target cat σ, u ≠ "" := by
  refine ⟨speciesUrls_length_le target cat σ, ?_, ?_⟩
  · have h1 : (σ (candidateUrls cat.csvs)).Nodup := hσ.nodup_iff.mpr (pdUnique_nodup _)
    exact (List.take_sublist _ _).nodup h1
  · intro u hu
    have h2 : u ∈ σ (candidateUrls cat.csvs) := List.mem_of_mem_take hu
    have h3 : u ∈ candidateUrls cat.csvs := hσ.mem_iff.mp h2
    have h4 := mem_pdUnique h3
    obtain ⟨s, _, hps⟩ := List.mem_filterMap.mp h4
    unfold parseCell at hps
    split_ifs at hps with hse
    have hsu : s = u := Option.some.inj hps
    intro hu0
    rw [hsu, hu0] at hse
    exact hse rfl

/-- Witness for C4 at a concrete category with three distinct candidates and
the identity shuffle. -/
theorem spec_c4_candidates_witness :
    (speciesUrls 2 catABC id).length ≤ 2 ∧
    (speciesUrls 2 catABC id).Nodup ∧
    ∀ u ∈ speciesUrls 2 catABC id, u ≠ "" :=
  spec_c4_candidates 2 catABC id (List.Perm.refl _)

/-- C7: destination assignment is a function of the candidate's position in
the shuffled truncated list only: any two completion schedules of the fetch
batch produce identical directory contents, and a successful candidate at
0-based position j always lands at index j+1 (its own file name), never at
another candidate's. -/
theorem spec_c7_order_independent (urls : List String) (valid : String → Bool)
    (s1 s2 : List Nat)
    (h1 : s1.Perm (List.range urls.length)) (h2 : s2.Perm (List.range urls.length)) :
    (∀ i, fetchRunOrdered urls valid s1 i = fetchRunOrdered urls valid s2 i) ∧
    (∀ j, j < urls.length → valid (urls.getD j "") = true →
      fetchRunOrdered urls valid s1 (j + 1) =
        some (Content.downloaded (urls.getD j ""))) := by
  constructor
  · intro i
    rw [fetchRunOrdered_eq urls valid s1 h1 i, fetchRunOrdered_eq urls valid s2 h2 i]
  · intro j hj hv
    rw [fetchRunOrdered_eq urls valid s1 h1 (j + 1)]
    show fetchAt urls valid j = _
    unfold fetchAt
    rw [if_pos hj, if_pos hv]

/-- Witness for C7: a two-candidate batch under the two possible completion
schedules. -/
theorem spec_c7_order_independent_witness :
    (∀ i, fetchRunOrdered ["a", "b"] validA [1, 0] i =
      fetchRunOrdered ["a", "b"] validA [0, 1] i) ∧
    (∀ j, j < (["a", "b"] : List String).length →
      validA ((["a", "b"] : List String).getD j "") = true →
      fetchRunOrdered ["a", "b"] validA [1, 0] (j + 1) =
        some (Content.downloaded ((["a", "b"] : List String).getD j ""))) :=
  spec_c7_order_independent ["a", "b"] validA [1, 0] [0, 1] (by decide) (by decide)

/-- C8: with target_count = 0 the candidate list is truncated to nothing, so
no fetch is attempted, no augmentation runs, and no output file exists. -/
theorem spec_c8_target_zero (cat : Category) (σ : List String → List String)
    (valid : String → Bool) (g : Nat → Nat) :
    speciesUrls 0 cat σ = [] ∧
    outcomeDownloaded (processSpecies 0 cat σ valid g) = 0 ∧
    outcomeAugmented (processSpecies 0 cat σ valid g) = 0 ∧
    ∀ i, outcomeFiles (processSpecies 0 cat σ valid g) i = none := by
  have hurls : speciesUrls 0 cat σ = [] := List.take_zero _
  unfold processSpecies
  by_cases hc1 : cat.csvs = []
  · rw [if_pos hc1]
    exact ⟨hurls, rfl, rfl, fun _ => rfl⟩
  rw [if_neg hc1]
  by_cases hc2 : cat.csvs.filterMap CsvFile.imageUrl = []
  · rw [if_pos hc2]
    exact ⟨hurls, rfl, rfl, fun _ => rfl⟩
  rw [if_neg hc2]
  have hD : ¬ poolDownloadedCount valid (speciesUrls 0 cat σ) < 0 := by omega
  rw [fetchPhase_eq_noaug 0 _ valid g hD]
  refine ⟨hurls, rfl, rfl, fun i => ?_⟩
  show fetchFS (speciesUrls 0 cat σ) valid i = none
  cases i with
  | zero => rfl
  | succ j =>
    show fetchAt (speciesUrls 0 cat σ) valid j = none
    unfold fetchAt
    rw [if_neg]
    rw [hurls]
    simp

/-- C1 counterexample: target 2, shuffled candidates ["A", "B"], A's download
fails, B's succeeds. downloaded_count = 1 > 0 and the category completes
without crashing, yet only one output file exists and its index set is [2]:
neither `exactly target_count files` nor `contiguous 1..target_count`
holds. -/
theorem spec_c1_counterexample :
    outcomeCrashed (processSpecies 2 catAB id validB g0) = false ∧
    outcomeDownloaded (processSpecies 2 catAB id validB g0) = 1 ∧
    fileIndices 2 (outcomeFiles (processSpecies 2 catAB id validB g0)) = [2] := by
  decide

/-- C1 (amended): if at least one candidate downloads successfully and the
successful downloads occupy exactly the first D positions of the shuffled
truncated candidate list (no failed download precedes a successful one),
then the category completes without crashing and the output indices are
exactly the contiguous range 1..target_count. -/
theorem spec_c1_contiguous (target : Nat) (cat : Category)
    (σ : List String → List String) (valid : String → Bool) (g : Nat → Nat)
    (h1 : cat.csvs ≠ []) (h2 : cat.csvs.filterMap CsvFile.imageUrl ≠ [])
    (hD0 : 0 < speciesD target cat σ valid)
    (hpre : ∀ j, j < (speciesUrls target cat σ).length →
      (valid ((speciesUrls target cat σ).getD j "") = true ↔
        j < speciesD target cat σ valid)) :
    outcomeCrashed (processSpecies target cat σ valid g) = false ∧
    fileIndices target (outcomeFiles (processSpecies target cat σ valid g)) =
      List.range' 1 target := by
  rw [processSpecies_fetchPhase target cat σ valid g h1 h2]
  have hlen := speciesUrls_length_le target cat σ
  have hD0b : 0 < poolDownloadedCount valid (speciesUrls target cat σ) := hD0
  by_cases hdlt : poolDownloadedCount valid (speciesUrls target cat σ) < target
  · have hne := existingImages_ne_nil target (speciesUrls target cat σ) valid hlen hD0b
    obtain ⟨hok, _, hframe, hrange⟩ :=
      augLoop_spec (existingImages target (speciesUrls target cat σ) valid) g
        (target - poolDownloadedCount valid (speciesUrls target cat σ))
        (poolDownloadedCount valid (speciesUrls target cat σ) + 1) 0
        (fetchFS (speciesUrls target cat σ) valid) hne
        (existingImages_isSome target (speciesUrls target cat σ) valid)
    rw [fetchPhase_eq_of_ok target (speciesUrls target cat σ) valid g hdlt hok]
    refine ⟨rfl, ?_⟩
    simp only [outcomeFiles_done]
    refine List.filter_eq_self.mpr ?_
    intro i hi
    rw [List.mem_range'_1] at hi
    by_cases hiD : i ≤ poolDownloadedCount valid (speciesUrls target cat σ)
    · rw [hframe i (Or.inl (by omega))]
      cases i with
      | zero => omega
      | succ k =>
        show (fetchAt (speciesUrls target cat σ) valid k).isSome = true
        rw [fetchAt_isSome_iff]
        have hkD : k < poolDownloadedCount valid (speciesUrls target cat σ) := by omega
        have hklen : k < (speciesUrls target cat σ).length :=
          lt_of_lt_of_le hkD (poolD_le_length _ _)
        exact ⟨hklen, (hpre k hklen).mpr hkD⟩
    · obtain ⟨s, c, hsc, _⟩ := hrange i (by omega) (by omega)
      rw [hsc]
      rfl
  · rw [fetchPhase_eq_noaug target (speciesUrls target cat σ) valid g hdlt]
    refine ⟨rfl, ?_⟩
    simp only [outcomeFiles_done]
    refine List.filter_eq_self.mpr ?_
    intro i hi
    rw [List.mem_range'_1] at hi
    cases i with
    | zero => omega
    | succ k =>
      show (fetchAt (speciesUrls target cat σ) valid k).isSome = true
      rw [fetchAt_isSome_iff]
      have hkD : k < poolDownloadedCount valid (speciesUrls target cat σ) := by omega
      have hklen : k < (speciesUrls target cat σ).length :=
        lt_of_lt_of_le hkD (poolD_le_length _ _)
      exact ⟨hklen, (hpre k hklen).mpr hkD⟩

/-- Witness for the amended C1: target 3, candidates a,b,c, the first two
downloads succeed (D = 2, a prefix), the third fails; one augmentation
fills index 3 and the directory holds exactly the indices 1,2,3. -/
theorem spec_c1_contiguous_witness :
    outcomeCrashed (processSpecies 3 catABC id validAB g0) = false ∧
    fileIndices 3 (outcomeFiles (processSpecies 3 catABC id validAB g0)) =
      List.range' 1 3 :=
  spec_c1_contiguous 3 catABC id validAB g0 (by decide) (by decide) (by decide)
    (by decide)

/-- C2: when 0 < downloaded_count = D < target_count, the augmentation
top-up completes, reports exactly target_count - D augmented files, and the
indices holding augmented files are exactly D+1..target_count. -/
theorem spec_c2_topup (target : Nat) (cat : Category)
    (σ : List String → List String) (valid : String → Bool) (g : Nat → Nat)
    (h1 : cat.csvs ≠ []) (h2 : cat.csvs.filterMap CsvFile.imageUrl ≠ [])
    (hD0 : 0 < speciesD target cat σ valid)
    (hdlt : speciesD target cat σ valid < target) :
    outcomeCrashed (processSpecies target cat σ valid g) = false ∧
    outcomeDownloaded (processSpecies target cat σ valid g) =
      speciesD target cat σ valid ∧
    outcomeAugmented (processSpecies target cat σ valid g) =
      target - speciesD target cat σ valid ∧
    ∀ i, isAugmentedAt (outcomeFiles (processSpecies target cat σ valid g)) i = true ↔
      (speciesD target cat σ valid + 1 ≤ i ∧ i ≤ target) := by
  rw [processSpecies_fetchPhase target cat σ valid g h1 h2]
  unfold speciesD at hD0 hdlt ⊢
  have hlen := speciesUrls_length_le target cat σ
  have hD0b : 0 < poolDownloadedCount valid (speciesUrls target cat σ) := hD0
  have hdltb : poolDownloadedCount valid (speciesUrls target cat σ) < target := hdlt
  have hne := existingImages_ne_nil target (speciesUrls target cat σ) valid hlen hD0b
  obtain ⟨hok, hcount, hframe, hrange⟩ :=
    augLoop_spec (existingImages target (speciesUrls target cat σ) valid) g
      (target - poolDownloadedCount valid (speciesUrls target cat σ))
      (poolDownloadedCount valid (speciesUrls target cat σ) + 1) 0
      (fetchFS (speciesUrls target cat σ) valid) hne
      (existingImages_isSome target (speciesUrls target cat σ) valid)
  rw [fetchPhase_eq_of_ok target (speciesUrls target cat σ) valid g hdltb hok]
  refine ⟨rfl, rfl, ?_, ?_⟩
  · show (augLoop (existingImages target (speciesUrls target cat σ) valid) g
      (fetchFS (speciesUrls target cat σ) valid)
      (poolDownloadedCount valid (speciesUrls target cat σ) + 1)
      (target - poolDownloadedCount valid (speciesUrls target cat σ)) 0).count =
        target - poolDownloadedCount valid (speciesUrls target cat σ)
    rw [hcount]
    omega
  · intro i
    simp only [outcomeFiles_done]
    constructor
    · intro haug
      by_contra hout
      have houtside : i < poolDownloadedCount valid (speciesUrls target cat σ) + 1 ∨
          (poolDownloadedCount valid (speciesUrls target cat σ) + 1) +
            (target - poolDownloadedCount valid (speciesUrls target cat σ)) ≤ i := by
        omega
      unfold isAugmentedAt at haug
      rw [hframe i houtside] at haug
      cases hf : fetchFS (speciesUrls target cat σ) valid i with
      | none => rw [hf] at haug; cases haug
      | some c =>
        cases c with
        | downloaded u => rw [hf] at haug; simp at haug
        | augmented s c2 => exact fetchFS_not_augmented _ valid i s c2 hf
    · intro hin
      obtain ⟨s, c, hsc, _⟩ := hrange i hin.1 (by omega)
      simp [isAugmentedAt, hsc]

/-- Witness for C2: target 3, candidates a,b,c, only a succeeds (D = 1): two
augmented files are reported, at exactly the indices 2 and 3. -/
theorem spec_c2_topup_witness :
    outcomeCrashed (processSpecies 3 catABC id validA g0) = false ∧
    outcomeDownloaded (processSpecies 3 catABC id validA g0) = 1 ∧
    outcomeAugmented (processSpecies 3 catABC id validA g0) = 3 - 1 ∧
    ∀ i, isAugmentedAt (outcomeFiles (processSpecies 3 catABC id validA g0)) i = true ↔
      (1 + 1 ≤ i ∧ i ≤ 3) :=
  spec_c2_topup 3 catABC id validA g0 (by decide) (by decide) (by decide) (by decide)

/-- C9 counterexample: target 3, candidates A,B with only B succeeding. The
download sits at index 2 (a gap at index 1), so the first augmentation write
(img_index = downloaded_count + 1 = 2) overwrites the snapshotted path of
index 2; the second iteration samples that same path and reads augmented
content: an augmented output produced in this same run is used as an
augmentation source, refuting the `never themselves sampled` part. -/
theorem spec_c9_counterexample :
    outcomeFiles (processSpecies 3 catAB id validB g0) 3 =
      some (Content.augmented 2 (Content.augmented 2 (Content.downloaded "B"))) := by
  decide

/-- C9 (amended): every augmentation sample reads a path from the pool
snapshotted before the loop; and when the successful downloads occupy
exactly the first D positions of the candidate list, every augmented file
is derived from downloaded content, i.e. augmented outputs produced in the
run are never sampled as sources. (Without the prefix condition the write
range D+1..target overlaps the snapshotted paths and augmented content can
be re-read, as the counterexample shows.) -/
theorem spec_c9_sources (target : Nat) (cat : Category)
    (σ : List String → List String) (valid : String → Bool) (g : Nat → Nat)
    (h1 : cat.csvs ≠ []) (h2 : cat.csvs.filterMap CsvFile.imageUrl ≠ [])
    (hD0 : 0 < speciesD target cat σ valid)
    (hpre : ∀ j, j < (speciesUrls target cat σ).length →
      (valid ((speciesUrls target cat σ).getD j "") = true ↔
        j < speciesD target cat σ valid)) :
    outcomeCrashed (processSpecies target cat σ valid g) = false ∧
    ∀ i s c, outcomeFiles (processSpecies target cat σ valid g) i =
        some (Content.augmented s c) →
      s ∈ existingImages target (speciesUrls target cat σ) valid ∧
      ∃ u, c = Content.downloaded u := by
  rw [processSpecies_fetchPhase target cat σ valid g h1 h2]
  unfold speciesD at hD0 hpre
  have hlen := speciesUrls_length_le target cat σ
  by_cases hdlt : poolDownloadedCount valid (speciesUrls target cat σ) < target
  · have hne := existingImages_ne_nil target (speciesUrls target cat σ) valid hlen hD0
    obtain ⟨hok, _, hframe, hrange⟩ :=
      augLoop_spec (existingImages target (speciesUrls target cat σ) valid) g
        (target - poolDownloadedCount valid (speciesUrls target cat σ))
        (poolDownloadedCount valid (speciesUrls target cat σ) + 1) 0
        (fetchFS (speciesUrls target cat σ) valid) hne
        (existingImages_isSome target (speciesUrls target cat σ) valid)
    rw [fetchPhase_eq_of_ok target (speciesUrls target cat σ) valid g hdlt hok]
    refine ⟨rfl, ?_⟩
    intro i s c h
    simp only [outcomeFiles_done] at h
    constructor
    · by_cases hin : poolDownloadedCount valid (speciesUrls target cat σ) + 1 ≤ i ∧
          i < (poolDownloadedCount valid (speciesUrls target cat σ) + 1) +
            (target - poolDownloadedCount valid (speciesUrls target cat σ))
      · obtain ⟨s2, c2, hsc2, hs2⟩ := hrange i hin.1 hin.2
        rw [h] at hsc2
        have hss : s = s2 := by
          have := Option.some.inj hsc2
          cases this
          rfl
        rw [hss]
        exact hs2
      · have houtside : i < poolDownloadedCount valid (speciesUrls target cat σ) + 1 ∨
            (poolDownloadedCount valid (speciesUrls target cat σ) + 1) +
              (target - poolDownloadedCount valid (speciesUrls target cat σ)) ≤ i := by
          omega
        rw [hframe i houtside] at h
        exact absurd h (fetchFS_not_augmented _ valid i s c)
    · refine augLoop_pure (existingImages target (speciesUrls target cat σ) valid) g
        (target - poolDownloadedCount valid (speciesUrls target cat σ))
        (poolDownloadedCount valid (speciesUrls target cat σ) + 1) 0
        (fetchFS (speciesUrls target cat σ) valid) ?_ ?_ ?_ i s c h
      · exact existingImages_le_D target (speciesUrls target cat σ) valid
          (poolDownloadedCount valid (speciesUrls target cat σ)) hpre
      · exact existingImages_downloaded target (speciesUrls target cat σ) valid
      · intro i2 s2 c2 h2
        exact absurd h2 (fetchFS_not_augmented _ valid i2 s2 c2)
  · rw [fetchPhase_eq_noaug target (speciesUrls target cat σ) valid g hdlt]
    refine ⟨rfl, ?_⟩
    intro i s c h
    simp only [outcomeFiles_done] at h
    exact absurd h (fetchFS_not_augmented _ valid i s c)

/-- Witness for the amended C9: target 3, candidates a,b,c, only a succeeds
(a prefix, D = 1): both augmented files derive from downloaded content and
sample the snapshotted pool. -/
theorem spec_c9_sources_witness :
    outcomeCrashed (processSpecies 3 catABC id validA g0) = false ∧
    ∀ i s c, outcomeFiles (processSpecies 3 catABC id validA g0) i =
        some (Content.augmented s c) →
      s ∈ existingImages 3 (speciesUrls 3 catABC id) validA ∧
      ∃ u, c = Content.downloaded u :=
  spec_c9_sources 3 catABC id validA g0 (by decide) (by decide) (by decide) (by decide)

/-- C5 at the failing input: target 5 and a category whose single candidate
fails to download. `process_species` reaches the top-up loop with an empty
source pool, `random.choice` raises, and `main` — which wraps the per-category
calls in no handler — aborts before attempting the remaining category.
This contradicts the claim that the run never crashes and always attempts
every remaining category. -/
theorem spec_c5_crash_eval :
    outcomeCrashed (processSpecies 5 catBad id validNone g0) = true ∧
    (runAll 5 validNone (fun _ => id) (fun _ => g0) 0 [catBad, catGood]).map Prod.fst =
      ["bad"] := by
  decide

/-- C6: a category with no CSV files, or whose merged metadata lacks the
image_url column, is skipped with no output image written, and the driver
continues with the next category. -/
theorem spec_c6_skip (target : Nat) (cat : Category)
    (σs : Nat → List String → List String) (valid : String → Bool)
    (gs : Nat → Nat → Nat) (i : Nat) (rest : List Category)
    (h : cat.csvs = [] ∨ cat.csvs.filterMap CsvFile.imageUrl = []) :
    outcomeIsSkip (processSpecies target cat (σs i) valid (gs i)) = true ∧
    (∀ j, outcomeFiles (processSpecies target cat (σs i) valid (gs i)) j = none) ∧
    (runAll target valid σs gs i (cat :: rest)).map Prod.fst =
      cat.name :: (runAll target valid σs gs (i + 1) rest).map Prod.fst := by
  have hskip : outcomeIsSkip (processSpecies target cat (σs i) valid (gs i)) = true ∧
      (∀ j, outcomeFiles (processSpecies target cat (σs i) valid (gs i)) j = none) ∧
      outcomeCrashed (processSpecies target cat (σs i) valid (gs i)) = false := by
    unfold processSpecies
    rcases h with h | h
    · rw [if_pos h]
      exact ⟨rfl, fun _ => rfl, rfl⟩
    · by_cases hA : cat.csvs = []
      · rw [if_pos hA]
        exact ⟨rfl, fun _ => rfl, rfl⟩
      · rw [if_neg hA, if_pos h]
        exact ⟨rfl, fun _ => rfl, rfl⟩
  refine ⟨hskip.1, hskip.2.1, ?_⟩
  rw [runAll_cons_not_crashed target valid σs gs i cat rest hskip.2.2]
  rfl

/-- Witness for C6: a CSV-less category followed by another category that is
still reached. -/
theorem spec_c6_skip_witness :
    outcomeIsSkip (processSpecies 3 catNoCsv id validA g0) = true ∧
    (∀ j, outcomeFiles (processSpecies 3 catNoCsv id validA g0) j = none) ∧
    (runAll 3 validA (fun _ => id) (fun _ => g0) 0 [catNoCsv, catGood]).map Prod.fst =
      catNoCsv.name :: (runAll 3 validA (fun _ => id) (fun _ => g0) 1 [catGood]).map
        Prod.fst :=
  spec_c6_skip 3 catNoCsv (fun _ => id) validA (fun _ => g0) 0 [catGood] (Or.inl rfl)

/-- C10: the images subdirectory is created before the metadata checks, so
every category — in particular one skipped for missing CSVs or a missing
image_url column — ends with an existing images directory, empty on the
skip paths. -/
theorem spec_c10_images_dir (target : Nat) (cat : Category)
    (σ : List String → List String) (valid : String → Bool) (g : Nat → Nat) :
    outcomeDir (processSpecies target cat σ valid g) = true ∧
    ((cat.csvs = [] ∨ cat.csvs.filterMap CsvFile.imageUrl = []) →
      outcomeIsSkip (processSpecies target cat σ valid g) = true ∧
      ∀ i, outcomeFiles (processSpecies target cat σ valid g) i = none) := by
  constructor
  · unfold processSpecies
    by_cases hA : cat.csvs = []
    · rw [if_pos hA]; rfl
    rw [if_neg hA]
    by_cases hB : cat.csvs.filterMap CsvFile.imageUrl = []
    · rw [if_pos hB]; rfl
    rw [if_neg hB]
    by_cases hdlt : poolDownloadedCount valid (speciesUrls target cat σ) < target
    · unfold fetchPhase
      rw [if_pos hdlt]
      cases hok : (augLoop (existingImages target (speciesUrls target cat σ) valid) g
          (fetchFS (speciesUrls target cat σ) valid)
          (poolDownloadedCount valid (speciesUrls target cat σ) + 1)
          (target - poolDownloadedCount valid (speciesUrls target cat σ)) 0).ok
      · simp [hok, outcomeDir, outcomeState]
      · simp [hok, outcomeDir, outcomeState]
    · rw [fetchPhase_eq_noaug target (speciesUrls target cat σ) valid g hdlt]; rfl
  · intro h
    unfold processSpecies
    rcases h with h | h
    · rw [if_pos h]
      exact ⟨rfl, fun _ => rfl⟩
    · by_cases hA : cat.csvs = []
      · rw [if_pos hA]
        exact ⟨rfl, fun _ => rfl⟩
      · rw [if_neg hA, if_pos h]
        exact ⟨rfl, fun _ => rfl⟩

/-- Witness for C10 at a CSV-less category. -/
theorem spec_c10_images_dir_witness :
    outcomeDir (processSpecies 3 catNoCsv id validA g0) = true ∧
    (outcomeIsSkip (processSpecies 3 catNoCsv id validA g0) = true ∧
      ∀ i, outcomeFiles (processSpecies 3 catNoCsv id validA g0) i = none) :=
  ⟨(spec_c10_images_dir 3 catNoCsv id validA g0).1,
   (spec_c10_images_dir 3 catNoCsv id validA g0).2 (Or.inl rfl)⟩
